import Mathlib

/-!
Shallow embedding of the chord-detection and progression-suggestion core of
the `chordvery` repository (files `src/theory/note.rs`, `src/theory/quality.rs`,
`src/theory/chord.rs`, `src/theory/progression.rs`), together with theorems
settling the specification claims about it.

Modelling conventions:
* Rust `u8` MIDI numbers are embedded as `Nat`; every arithmetic operation the
  source performs on them (`% 12`, `pc + 12 - root`, `pc + 60`) stays below 256
  on the source's value ranges, so plain `Nat` arithmetic agrees with `u8`.
  Where the source can wrap (the `as u8` conversion in `Note::from_name`) the
  wrap is made explicit with `% 256`.
* Rust `HashSet<u8>` values are embedded as `Finset ℕ`.  A `HashSet` has no
  inherent iteration order; following the specification's determinization note
  (§4.3 step 6 and §9: "iterate roots in ascending numeric order"), the
  embedding enumerates candidate roots in ascending pitch-class order.
* Rust strings are embedded as `List Char` (a Rust `&str` is a valid UTF-8
  sequence, i.e. exactly a sequence of unicode scalar values).  Byte-index
  slicing, which the source uses and which aborts the process when the index
  is not a character boundary, is modelled by `byteSplitAt`, which returns
  `none` exactly when the corresponding Rust slice expression would abort.
  Fallible parsing functions therefore return `Except Unit (Option _)`:
  `Except.error ()` models a Rust abort, `Except.ok none` models `None`,
  `Except.ok (some x)` models `Some(x)`.
-/

/-- Embedding of `NOTE_NAMES` from `note.rs` / `chord.rs`. -/
def NOTE_NAMES : List (List Char) :=
  [['C'], ['C', '#'], ['D'], ['D', '#'], ['E'],
   ['F'], ['F', '#'], ['G'], ['G', '#'], ['A'], ['A', '#'], ['B']]

/-- Embedding of `struct Note { midi: u8 }` from `note.rs`. -/
structure Note where
  midi : Nat
deriving DecidableEq, Repr

/-- Embedding of `Note::new`. -/
def Note.new (midi : Nat) : Note := ⟨midi⟩

/-- Embedding of `Note::pitch_class`. -/
def Note.pitch_class (n : Note) : Nat := n.midi % 12

/-- Embedding of `Note::name` (the `NOTE_NAMES` index is `pitch_class`,
which is always `< 12`, so the fallback default is never taken). -/
def Note.name (n : Note) : List Char := NOTE_NAMES.getD n.pitch_class []

/-- Embedding of `enum Quality` from `quality.rs`. -/
inductive Quality where
  | Major | Minor | Diminished | Augmented
  | Major7 | Minor7 | Dominant7 | Diminished7 | HalfDim7 | MinorMajor7 | Augmented7
  | Sus2 | Sus4 | Add9 | Unknown
deriving DecidableEq, Repr

/-- Embedding of `Quality::symbol`. -/
def Quality.symbol : Quality → List Char
  | .Major => "".toList
  | .Minor => "m".toList
  | .Diminished => "dim".toList
  | .Augmented => "+".toList
  | .Major7 => "maj7".toList
  | .Minor7 => "m7".toList
  | .Dominant7 => "7".toList
  | .Diminished7 => "dim7".toList
  | .HalfDim7 => "m7b5".toList
  | .MinorMajor7 => "mMaj7".toList
  | .Augmented7 => "+7".toList
  | .Sus2 => "sus2".toList
  | .Sus4 => "sus4".toList
  | .Add9 => "add9".toList
  | .Unknown => "?".toList

/-- Embedding of `Quality::intervals`. -/
def Quality.intervals : Quality → List Nat
  | .Major => [0, 4, 7]
  | .Minor => [0, 3, 7]
  | .Diminished => [0, 3, 6]
  | .Augmented => [0, 4, 8]
  | .Major7 => [0, 4, 7, 11]
  | .Minor7 => [0, 3, 7, 10]
  | .Dominant7 => [0, 4, 7, 10]
  | .Diminished7 => [0, 3, 6, 9]
  | .HalfDim7 => [0, 3, 6, 10]
  | .MinorMajor7 => [0, 3, 7, 11]
  | .Augmented7 => [0, 4, 8, 10]
  | .Sus2 => [0, 2, 7]
  | .Sus4 => [0, 5, 7]
  | .Add9 => [0, 4, 7, 14]
  | .Unknown => []

/-- Embedding of `Quality::all_triads`. -/
def Quality.all_triads : List Quality :=
  [.Major, .Minor, .Diminished, .Augmented, .Sus2, .Sus4]

/-- Embedding of `Quality::all_sevenths`. -/
def Quality.all_sevenths : List Quality :=
  [.Major7, .Minor7, .Dominant7, .Diminished7, .HalfDim7, .MinorMajor7, .Augmented7]

/-- Embedding of `struct Chord { root, quality, bass }` from `chord.rs`. -/
structure Chord where
  root : Note
  quality : Quality
  bass : Option Note
deriving DecidableEq, Repr

/-- Embedding of `Chord::new` (bass starts out `None`). -/
def Chord.new (root : Note) (quality : Quality) : Chord :=
  { root := root, quality := quality, bass := none }

/-- The `quality_intervals` set of `Chord::detect`: a quality's canonical
intervals, each reduced `% 12`, collected into a set. -/
def Quality.intervalSet (q : Quality) : Finset Nat :=
  (q.intervals.map (fun i => i % 12)).toFinset

/-- The `intervals` set of `Chord::detect`: `{(pc + 12 - root) % 12}` over the
pitch classes of the input. -/
def Chord.intervalsFrom (pitch_classes : Finset Nat) (potential_root : Nat) : Finset Nat :=
  pitch_classes.image (fun pc => (pc + 12 - potential_root) % 12)

/-- The score computed by `Chord::detect` on an exact match: 10 for root
position else 5, plus 2 when the quality has four intervals. -/
def Chord.matchScore (lowest_pitch_class potential_root : Nat) (q : Quality) : Nat :=
  (if potential_root = lowest_pitch_class then 10 else 5) +
    (if q.intervals.length = 4 then 2 else 0)

/-- The chord `Chord::detect` builds on a match: root instantiated at
`pitch class + 60`, with `bass = Some(Note(lowest_note))` exactly when the
root is not in root position. -/
def Chord.buildMatch (lowest_note potential_root : Nat) (q : Quality) : Chord :=
  if potential_root = lowest_note % 12 then Chord.new (Note.new (potential_root + 60)) q
  else { root := Note.new (potential_root + 60), quality := q,
         bass := some (Note.new lowest_note) }

/-- The `lowest_note` of `Chord::detect`: `*notes.iter().min()?`.  The default
`0` is only reachable on the empty set, which `detect` has already rejected. -/
def Chord.lowestNote (notes : Finset Nat) : Nat :=
  match notes.min with
  | some m => m
  | none => 0

/-- The enumeration order of candidate roots used by the embedding of
`Chord::detect`: ascending pitch classes present in the set (the
determinization of the `HashSet` iteration order mandated by the spec). -/
def Chord.rootList (pitch_classes : Finset Nat) : List Nat :=
  (List.range 12).filter (fun r => decide (r ∈ pitch_classes))

/-- Embedding of `Chord::detect` from `chord.rs`: reject inputs with fewer
than 3 distinct notes or pitch classes, then scan every candidate root against
every seventh quality followed by every triad quality, keeping the match with
the strictly highest score seen so far. -/
def Chord.detect (notes : Finset Nat) : Option Chord :=
  if notes.card < 3 then none
  else
    let pitch_classes : Finset Nat := notes.image (fun n => n % 12)
    if pitch_classes.card < 3 then none
    else
      let lowest_note := Chord.lowestNote notes
      let lowest_pitch_class := lowest_note % 12
      ((Chord.rootList pitch_classes).foldl
        (fun best potential_root =>
          (Quality.all_sevenths ++ Quality.all_triads).foldl
            (fun best quality =>
              if Chord.intervalsFrom pitch_classes potential_root = quality.intervalSet then
                if best.2 < Chord.matchScore lowest_pitch_class potential_root quality then
                  (some (Chord.buildMatch lowest_note potential_root quality),
                   Chord.matchScore lowest_pitch_class potential_root quality)
                else best
              else best)
            best)
        ((none : Option Chord), 0)).1

/-- Specification-side list of all exact matches, in encounter order: candidate
roots in enumeration order, and for each root the sevenths before the triads. -/
def Chord.matchList (pitch_classes : Finset Nat) : List (Nat × Quality) :=
  (Chord.rootList pitch_classes).flatMap (fun r =>
    ((Quality.all_sevenths ++ Quality.all_triads).filter
      (fun q => decide (Chord.intervalsFrom pitch_classes r = q.intervalSet))).map
        (fun q => (r, q)))

/-- Specification-side score of a match, in the words of the claim: base 10
if the root equals the lowest pitch class and 5 otherwise, plus 2 if the
matched quality is a seventh (four-note) quality. -/
def Chord.specScore (lowest_pitch_class : Nat) (m : Nat × Quality) : Nat :=
  (if m.1 = lowest_pitch_class then 10 else 5) +
    (if m.2 ∈ Quality.all_sevenths then 2 else 0)

/-- Specification-side detector: among all matches, return the first one (in
encounter order) whose score is maximal — i.e. the match with the strictly
highest score, ties broken in favour of the first match encountered. -/
def Chord.detectSpec (notes : Finset Nat) : Option Chord :=
  if notes.card < 3 then none
  else
    let pitch_classes : Finset Nat := notes.image (fun n => n % 12)
    if pitch_classes.card < 3 then none
    else
      let lowest_note := Chord.lowestNote notes
      let ms := Chord.matchList pitch_classes
      (ms.find? (fun m =>
        decide (∀ m2 ∈ ms,
          Chord.specScore (lowest_note % 12) m2 ≤ Chord.specScore (lowest_note % 12) m))).map
        (fun m => Chord.buildMatch lowest_note m.1 m.2)

/-- Embedding of `Chord::name`: root name, quality symbol, and `/<bass name>`
only when a bass is present whose pitch class differs from the root's. -/
def Chord.name (c : Chord) : List Char :=
  let base := c.root.name ++ c.quality.symbol
  match c.bass with
  | some bass => if bass.pitch_class ≠ c.root.pitch_class then base ++ '/' :: bass.name else base
  | none => base

/-- Embedding of the numeral `match degree` table of `Chord::roman_numeral`.
The source's `unreachable!()` arm (degree ≥ 12 never happens) is modelled by
the empty string. -/
def Chord.numeralFor : Nat → List Char
  | 0 => "I".toList
  | 1 => "bII".toList
  | 2 => "II".toList
  | 3 => "bIII".toList
  | 4 => "III".toList
  | 5 => "IV".toList
  | 6 => "bV".toList
  | 7 => "V".toList
  | 8 => "bVI".toList
  | 9 => "VI".toList
  | 10 => "bVII".toList
  | 11 => "VII".toList
  | _ => []

/-- Embedding of `Chord::roman_numeral` from `chord.rs`.  Rust's
`str::to_lowercase` is modelled by `Char.toLower` on each character (the
numeral strings are ASCII). -/
def Chord.roman_numeral (c : Chord) (key : Note) : List Char :=
  let degree := (c.root.pitch_class + 12 - key.pitch_class) % 12
  let numeral := Chord.numeralFor degree
  let is_minor := c.quality = .Minor ∨ c.quality = .Minor7 ∨
    c.quality = .MinorMajor7 ∨ c.quality = .HalfDim7
  let is_diminished := c.quality = .Diminished ∨ c.quality = .Diminished7
  let base := if is_minor ∨ is_diminished then numeral.map Char.toLower else numeral
  let suffix : List Char :=
    match c.quality with
    | .Major => []
    | .Minor => []
    | .Diminished => "°".toList
    | .Augmented => "+".toList
    | .Major7 => "maj7".toList
    | .Minor7 => "7".toList
    | .Dominant7 => "7".toList
    | .Diminished7 => "°7".toList
    | .HalfDim7 => "ø7".toList
    | q => q.symbol
  base ++ suffix

/-- Specification-side roman numeral, written from the claim's words: index
the fixed numeral list by the degree, lowercase exactly when the quality is
one of Minor, Minor7, MinorMajor7, HalfDiminished7, Diminished, Diminished7,
and append the quality-specific suffix (Minor7 and Dominant7 both `"7"`). -/
def Chord.romanSpec (c : Chord) (key : Note) : List Char :=
  let degree := (c.root.pitch_class + 12 - key.pitch_class) % 12
  let numeral := (["I", "bII", "II", "bIII", "III", "IV", "bV", "V", "bVI", "VI",
    "bVII", "VII"].map String.toList).getD degree []
  let lowercased := c.quality ∈ [Quality.Minor, Quality.Minor7, Quality.MinorMajor7,
    Quality.HalfDim7, Quality.Diminished, Quality.Diminished7]
  let base := if lowercased then numeral.map Char.toLower else numeral
  let suffix : List Char :=
    match c.quality with
    | .Minor7 => "7".toList
    | .Dominant7 => "7".toList
    | .Major => []
    | .Minor => []
    | .Diminished => "°".toList
    | .Augmented => "+".toList
    | .Major7 => "maj7".toList
    | .Diminished7 => "°7".toList
    | .HalfDim7 => "ø7".toList
    | q => q.symbol
  base ++ suffix

/-- Total UTF-8 byte length of a string, as computed by Rust's `str::len`. -/
def utf8Len (s : List Char) : Nat := (s.map Char.utf8Size).sum

/-- Model of Rust byte-index slicing `(&s[..k], &s[k..])`: returns the split
when byte index `k` lies on a character boundary at or before the end of the
string, and `none` (a Rust abort) otherwise. -/
def byteSplitAt (k : Nat) (s : List Char) : Option (List Char × List Char) :=
  if k = 0 then some ([], s)
  else
    match s with
    | [] => none
    | c :: rest =>
      if c.utf8Size ≤ k then
        (byteSplitAt (k - c.utf8Size) rest).map (fun p => (c :: p.1, p.2))
      else none

/-- Model of Rust `str::trim` (the inputs relevant here are ASCII, where
`Char.isWhitespace` agrees with Rust's trim set). -/
def strTrim (s : List Char) : List Char :=
  ((s.dropWhile Char.isWhitespace).reverse.dropWhile Char.isWhitespace).reverse

/-- Model of Rust `str::parse::<i8>()`: optional sign, at least one digit,
all digits, and the value must fit in `[-128, 127]`. -/
def parseI8 (s : List Char) : Option Int :=
  let signDigits : Int × List Char :=
    match s with
    | '+' :: rest => (1, rest)
    | '-' :: rest => (-1, rest)
    | _ => (1, s)
  let digits := signDigits.2
  if digits = [] then none
  else if digits.all Char.isDigit then
    let v : Nat := digits.foldl (fun a ch => a * 10 + (Char.toNat ch - Char.toNat '0')) 0
    let i : Int := signDigits.1 * v
    if -128 ≤ i ∧ i ≤ 127 then some i else none
  else none

/-- Embedding of `Note::from_name` from `note.rs`.  `Except.error ()` models a
Rust abort (byte slicing at a non-boundary index); `Except.ok none` models a
`None` return.  The `(octave + 1) * 12` multiplication and the `as u8`
conversion plus addition wrap modulo 256 (release-profile semantics, as the
spec itself describes: out-of-range octaves "silently produce overflowed
values"). -/
def Note.from_name (input : List Char) : Except Unit (Option Note) :=
  let name := strTrim input
  if name = [] then .ok none
  else
    match (if 2 ≤ utf8Len name ∧ name.get? 1 = some '#'
           then byteSplitAt 2 name else byteSplitAt 1 name) with
    | none => .error ()
    | some (note_part, octave_part) =>
      match NOTE_NAMES.findIdx? (fun nm => nm = note_part) with
      | none => .ok none
      | some pitch_class =>
        match parseI8 octave_part with
        | none => .ok none
        | some octave =>
          let midi : Nat := (((octave + 1) * 12 + (pitch_class : Int)) % 256).toNat
          .ok (some (Note.new midi))

/-- Embedding of the quality-token alias table of `Chord::from_name`. -/
def Quality.fromToken (s : List Char) : Option Quality :=
  if s = "".toList then some .Major
  else if s = "m".toList then some .Minor
  else if s = "dim".toList ∨ s = "°".toList then some .Diminished
  else if s = "+".toList ∨ s = "aug".toList then some .Augmented
  else if s = "maj7".toList ∨ s = "M7".toList then some .Major7
  else if s = "m7".toList ∨ s = "min7".toList then some .Minor7
  else if s = "7".toList ∨ s = "dom7".toList then some .Dominant7
  else if s = "dim7".toList ∨ s = "°7".toList then some .Diminished7
  else if s = "m7b5".toList ∨ s = "ø7".toList ∨ s = "ø".toList then some .HalfDim7
  else if s = "mMaj7".toList ∨ s = "mM7".toList then some .MinorMajor7
  else if s = "+7".toList ∨ s = "aug7".toList then some .Augmented7
  else if s = "sus2".toList then some .Sus2
  else if s = "sus4".toList ∨ s = "sus".toList then some .Sus4
  else if s = "add9".toList then some .Add9
  else none

/-- The `rest.find('/')` split of `Chord::from_name`.  `'/'` is a one-byte
character, so the byte index of its first occurrence is always a character
boundary and this split never aborts. -/
def slashSplit (rest : List Char) : List Char × Option (List Char) :=
  match rest.findIdx? (fun c => c = '/') with
  | some idx => (rest.take idx, some (rest.drop (idx + 1)))
  | none => (rest, none)

/-- Embedding of `Chord::from_name` from `chord.rs`.  `Except.error ()` models
a Rust abort (byte slicing at a non-boundary index); `Except.ok none` models a
`None` return. -/
def Chord.from_name (input : List Char) : Except Unit (Option Chord) :=
  let name := strTrim input
  if name = [] then .ok none
  else
    match (if 2 ≤ utf8Len name ∧ name.get? 1 = some '#'
           then byteSplitAt 2 name else byteSplitAt 1 name) with
    | none => .error ()
    | some (root_str, rest) =>
      match NOTE_NAMES.findIdx? (fun nm => nm = root_str) with
      | none => .ok none
      | some root_pitch_class =>
        let root := Note.new (root_pitch_class + 60)
        let qb := slashSplit rest
        match Quality.fromToken qb.1 with
        | none => .ok none
        | some quality =>
          match qb.2 with
          | none => .ok (some (Chord.new root quality))
          | some bass_name =>
            match NOTE_NAMES.findIdx? (fun nm => nm = bass_name) with
            | none => .ok none
            | some bass_pitch_class =>
              .ok (some { root := root, quality := quality,
                          bass := some (Note.new (bass_pitch_class + 60)) })

/-- Two chords are equal modulo octave when root pitch classes agree, the
qualities agree, and the basses have the same pitch class or are both absent. -/
def Chord.sameModOctave (a b : Chord) : Prop :=
  a.root.pitch_class = b.root.pitch_class ∧ a.quality = b.quality ∧
    a.bass.map Note.pitch_class = b.bass.map Note.pitch_class

instance (a b : Chord) : Decidable (Chord.sameModOctave a b) :=
  inferInstanceAs (Decidable (a.root.pitch_class = b.root.pitch_class ∧
    a.quality = b.quality ∧ a.bass.map Note.pitch_class = b.bass.map Note.pitch_class))

/-- Embedding of `struct ProgressionNode` from `progression.rs`. -/
inductive ProgressionNode where
  | mk : Chord → Option ProgressionNode → Option ProgressionNode → ProgressionNode

/-- Field accessor for `ProgressionNode.chord`. -/
def ProgressionNode.chord : ProgressionNode → Chord
  | .mk c _ _ => c

/-- Field accessor for `ProgressionNode.left`. -/
def ProgressionNode.left : ProgressionNode → Option ProgressionNode
  | .mk _ l _ => l

/-- Field accessor for `ProgressionNode.right`. -/
def ProgressionNode.right : ProgressionNode → Option ProgressionNode
  | .mk _ _ r => r

/-- Embedding of `ProgressionNode::new`. -/
def ProgressionNode.new (chord : Chord) : ProgressionNode := .mk chord none none

/-- Embedding of `ProgressionNode::with_children`. -/
def ProgressionNode.with_children (n : ProgressionNode) (l r : ProgressionNode) :
    ProgressionNode :=
  .mk n.chord (some l) (some r)

/-- Number of nodes of a progression tree. -/
def ProgressionNode.size : ProgressionNode → Nat
  | .mk _ none none => 1
  | .mk _ none (some r) => 1 + r.size
  | .mk _ (some l) none => 1 + l.size
  | .mk _ (some l) (some r) => 1 + l.size + r.size

/-- Number of levels (depth) of a progression tree. -/
def ProgressionNode.depth : ProgressionNode → Nat
  | .mk _ none none => 1
  | .mk _ none (some r) => 1 + r.depth
  | .mk _ (some l) none => 1 + l.depth
  | .mk _ (some l) (some r) => 1 + max l.depth r.depth

/-- In every node of the tree, `left` and `right` are either both present or
both absent. -/
def ProgressionNode.balanced : ProgressionNode → Bool
  | .mk _ none none => true
  | .mk _ none (some _) => false
  | .mk _ (some _) none => false
  | .mk _ (some l) (some r) => l.balanced && r.balanced

/-- Preorder listing of all nodes of a progression tree (the tree itself
first). -/
def ProgressionNode.nodes : ProgressionNode → List ProgressionNode
  | .mk c none none => [.mk c none none]
  | .mk c none (some r) => .mk c none (some r) :: r.nodes
  | .mk c (some l) none => .mk c (some l) none :: l.nodes
  | .mk c (some l) (some r) => .mk c (some l) (some r) :: (l.nodes ++ r.nodes)

/-- Embedding of `struct ProgressionTree { extended_mode: bool }`. -/
structure ProgressionTree where
  extended_mode : Bool
deriving DecidableEq, Repr

/-- Embedding of `ProgressionTree::extend_quality`. -/
def ProgressionTree.extend_quality (_t : ProgressionTree) (quality : Quality) : Quality :=
  match quality with
  | .Major => .Major7
  | .Minor => .Minor7
  | q => q

/-- Embedding of `ProgressionTree::get_degree`. -/
def ProgressionTree.get_degree (_t : ProgressionTree) (chord : Chord) (key : Note) : Nat :=
  (chord.root.pitch_class + 12 - key.pitch_class) % 12

/-- Embedding of the degree table of `ProgressionTree::get_suggestions`:
`(left_interval, left_quality, right_interval, right_quality)` per degree,
with the `V → {I, vi}` row as the default for every other degree. -/
def ProgressionTree.suggestionRow (degree : Nat) : Nat × Quality × Nat × Quality :=
  if degree = 0 then (5, .Major, 9, .Minor)
  else if degree = 2 then (7, .Major, 5, .Major)
  else if degree = 4 then (9, .Minor, 5, .Major)
  else if degree = 5 then (7, .Major, 0, .Major)
  else if degree = 7 then (0, .Major, 9, .Minor)
  else if degree = 9 then (2, .Minor, 5, .Major)
  else if degree = 11 then (0, .Major, 4, .Minor)
  else (7, .Major, 0, .Major)

/-- Embedding of `ProgressionTree::get_suggestions`. -/
def ProgressionTree.get_suggestions (t : ProgressionTree) (degree : Nat) (key : Note)
    (_current : Chord) : Chord × Chord :=
  let row := ProgressionTree.suggestionRow degree
  let left_root := Note.new ((key.pitch_class + row.1) % 12 + 60)
  let right_root := Note.new ((key.pitch_class + row.2.2.1) % 12 + 60)
  let left_quality := if t.extended_mode then t.extend_quality row.2.1 else row.2.1
  let right_quality := if t.extended_mode then t.extend_quality row.2.2.2 else row.2.2.2
  (Chord.new left_root left_quality, Chord.new right_root right_quality)

/-- Embedding of `ProgressionTree::suggest` from `progression.rs`. -/
def ProgressionTree.suggest (t : ProgressionTree) (current : Chord) (key : Option Note) :
    ProgressionNode :=
  let key := key.getD current.root
  let degree := t.get_degree current key
  let lr := t.get_suggestions degree key current
  let left_chord := lr.1
  let right_chord := lr.2
  let llr := t.get_suggestions (t.get_degree left_chord key) key left_chord
  let rlr := t.get_suggestions (t.get_degree right_chord key) key right_chord
  let left_node := (ProgressionNode.new left_chord).with_children
    (ProgressionNode.new llr.1) (ProgressionNode.new llr.2)
  let right_node := (ProgressionNode.new right_chord).with_children
    (ProgressionNode.new rlr.1) (ProgressionNode.new rlr.2)
  (ProgressionNode.new current).with_children left_node right_node

/-- Folding a function that acts only on elements satisfying `P` is folding
over the filtered, mapped list. -/
lemma foldl_filter_map {α β γ : Type} (P : α → Prop) [DecidablePred P] (f : α → β)
    (g : γ → β → γ) (l : List α) (init : γ) :
    l.foldl (fun a x => if P x then g a (f x) else a) init
      = ((l.filter (fun x => decide (P x))).map f).foldl g init := by
  induction l generalizing init with
  | nil => rfl
  | cons hd tl ih =>
    by_cases h : P hd <;> simp [List.filter_cons, h, ih]

/-- A nested fold over a family of lists is a fold over their concatenation. -/
lemma foldl_flatMap {α β γ : Type} (f : α → List β) (g : γ → β → γ) (l : List α)
    (init : γ) :
    (l.flatMap f).foldl g init = l.foldl (fun a x => (f x).foldl g a) init := by
  induction l generalizing init
  case nil => rfl
  case cons hd tl ih => simp [List.foldl_append, ih]

/-- The first element satisfying a predicate only depends on the predicate's
values on the list. -/
lemma find?_congr {α : Type} (p q : α → Bool) (l : List α)
    (h : ∀ x ∈ l, p x = q x) : l.find? p = l.find? q := by
  induction l with
  | nil => rfl
  | cons x xs ih =>
    simp only [List.find?_cons]
    rw [h x (by simp)]
    cases q x with
    | true => rfl
    | false => exact ih (fun y hy => h y (by simp [hy]))

/-- Every nonempty list has an element of maximal score. -/
lemma exists_max_mem {β : Type} (sc : β → Nat) :
    ∀ (l : List β), l ≠ [] → ∃ z ∈ l, ∀ y ∈ l, sc y ≤ sc z := by
  intro l
  induction l with
  | nil => intro h; exact absurd rfl h
  | cons x xs ih =>
    intro _
    rcases eq_or_ne xs [] with hxs | hxs
    · exact ⟨x, by simp, by simp [hxs]⟩
    · obtain ⟨z, hz, hzmax⟩ := ih hxs
      rcases le_or_lt (sc z) (sc x) with hle | hlt
      · exact ⟨x, by simp, by
          intro y hy
          rcases List.mem_cons.mp hy with rfl | hy
          · exact le_refl _
          · exact le_trans (hzmax y hy) hle⟩
      · exact ⟨z, by simp [hz], by
          intro y hy
          rcases List.mem_cons.mp hy with rfl | hy
          · exact le_of_lt hlt
          · exact hzmax y hy⟩

/-- Characterization of the "keep the strictly best so far" fold: starting
from score `s`, it returns the first element whose score beats `s` and is
maximal over the whole list, or keeps the start value when no element beats
`s`. -/
lemma foldl_best {β γ : Type} (sc : β → Nat) (bld : β → γ) :
    ∀ (l : List β) (ob : Option γ) (s : Nat),
    l.foldl (fun best x => if best.2 < sc x then (some (bld x), sc x) else best) (ob, s)
      = match l.find? (fun x => decide (s < sc x) && l.all (fun y => decide (sc y ≤ sc x))) with
        | some x => (some (bld x), sc x)
        | none => (ob, s) := by
  intro l
  induction l with
  | nil => intro ob s; rfl
  | cons x xs ih =>
    intro ob s
    simp only [List.foldl_cons]
    by_cases hx : s < sc x
    · rw [show (if (ob, s).2 < sc x then (some (bld x), sc x) else (ob, s))
            = (some (bld x), sc x) by simp [hx]]
      rw [ih (some (bld x)) (sc x)]
      by_cases hmax : ∀ y ∈ xs, sc y ≤ sc x
      · have h1 : xs.find? (fun z => decide (sc x < sc z) &&
            xs.all (fun y => decide (sc y ≤ sc z))) = none := by
          rw [List.find?_eq_none]
          intro z hz
          simp only [Bool.and_eq_true, decide_eq_true_eq, not_and]
          intro hlt
          exact absurd hlt (not_lt.mpr (hmax z hz))
        have h2 : (x :: xs).find? (fun z => decide (s < sc z) &&
            (x :: xs).all (fun y => decide (sc y ≤ sc z))) = some x := by
          apply List.find?_cons_of_pos
          simp only [Bool.and_eq_true, decide_eq_true_eq, List.all_eq_true,
            decide_eq_true_eq]
          exact ⟨hx, by
            intro y hy
            rcases List.mem_cons.mp hy with rfl | hy
            · exact le_refl _
            · exact hmax y hy⟩
        rw [h1, h2]
      · push_neg at hmax
        obtain ⟨y0, hy0, hy0lt⟩ := hmax
        have hpx : ¬ ((fun z => decide (s < sc z) &&
            (x :: xs).all (fun y => decide (sc y ≤ sc z))) x = true) := by
          simp only [Bool.and_eq_true, decide_eq_true_eq, List.all_eq_true,
            decide_eq_true_eq, not_and]
          intro _ hall
          exact absurd (hall y0 (by simp [hy0])) (not_le.mpr hy0lt)
        rw [@List.find?_cons_of_neg _ (fun z => decide (s < sc z) &&
          (x :: xs).all (fun y => decide (sc y ≤ sc z))) x xs hpx]
        have hcongr : xs.find? (fun z => decide (s < sc z) &&
              (x :: xs).all (fun y => decide (sc y ≤ sc z)))
            = xs.find? (fun z => decide (sc x < sc z) &&
              xs.all (fun y => decide (sc y ≤ sc z))) := by
          apply find?_congr
          intro z hz
          rw [Bool.eq_iff_iff]
          simp only [Bool.and_eq_true, decide_eq_true_eq, List.all_eq_true,
            decide_eq_true_eq]
          constructor
          · rintro ⟨hs, hall⟩
            have hxz : sc x < sc z := lt_of_lt_of_le hy0lt (hall y0 (by simp [hy0]))
            exact ⟨hxz, fun y hy => hall y (by simp [hy])⟩
          · rintro ⟨hxz, hall⟩
            refine ⟨lt_trans hx hxz, ?_⟩
            intro y hy
            rcases List.mem_cons.mp hy with rfl | hy
            · exact le_of_lt hxz
            · exact hall y hy
        rw [hcongr]
        obtain ⟨z, hzmem, hzmax⟩ := exists_max_mem sc xs (by
          intro h; rw [h] at hy0; exact absurd hy0 (List.not_mem_nil y0))
        cases hf : xs.find? (fun z => decide (sc x < sc z) &&
            xs.all (fun y => decide (sc y ≤ sc z))) with
        | none =>
          exfalso
          rw [List.find?_eq_none] at hf
          apply hf z hzmem
          simp only [Bool.and_eq_true, decide_eq_true_eq, List.all_eq_true,
            decide_eq_true_eq]
          exact ⟨lt_of_lt_of_le hy0lt (hzmax y0 hy0), hzmax⟩
        | some w => rfl
    · rw [show (if (ob, s).2 < sc x then (some (bld x), sc x) else (ob, s))
            = (ob, s) by simp [hx]]
      rw [ih ob s]
      have hpx : ¬ ((fun z => decide (s < sc z) &&
          (x :: xs).all (fun y => decide (sc y ≤ sc z))) x = true) := by
        simp [hx]
      rw [@List.find?_cons_of_neg _ (fun z => decide (s < sc z) &&
        (x :: xs).all (fun y => decide (sc y ≤ sc z))) x xs hpx]
      have hcongr : xs.find? (fun z => decide (s < sc z) &&
            (x :: xs).all (fun y => decide (sc y ≤ sc z)))
          = xs.find? (fun z => decide (s < sc z) &&
            xs.all (fun y => decide (sc y ≤ sc z))) := by
        apply find?_congr
        intro z hz
        rw [Bool.eq_iff_iff]
        simp only [Bool.and_eq_true, decide_eq_true_eq, List.all_eq_true,
          decide_eq_true_eq]
        constructor
        · rintro ⟨hs, hall⟩
          exact ⟨hs, fun y hy => hall y (by simp [hy])⟩
        · rintro ⟨hs, hall⟩
          refine ⟨hs, ?_⟩
          intro y hy
          rcases List.mem_cons.mp hy with rfl | hy
          · exact le_of_lt (lt_of_le_of_lt (not_lt.mp hx) hs)
          · exact hall y hy
      rw [hcongr]

/-- The scoring step of the detector's fold, on (root, quality) matches. -/
def Chord.scoreStep (lowest : Nat) (best : Option Chord × Nat) (m : Nat × Quality) :
    Option Chord × Nat :=
  if best.2 < Chord.matchScore (lowest % 12) m.1 m.2
  then (some (Chord.buildMatch lowest m.1 m.2), Chord.matchScore (lowest % 12) m.1 m.2)
  else best

/-- Every match score is positive (at least 5). -/
lemma matchScore_pos (lpc r : Nat) (q : Quality) : 0 < Chord.matchScore lpc r q := by
  unfold Chord.matchScore
  have h5 : 5 ≤ (if r = lpc then 10 else 5) := by split <;> omega
  omega

/-- Among the scanned qualities, having four intervals is the same as being a
seventh quality. -/
lemma seventh_mem_iff :
    ∀ q ∈ Quality.all_sevenths ++ Quality.all_triads,
      (q.intervals.length = 4 ↔ q ∈ Quality.all_sevenths) := by decide

/-- Membership characterization of the match list. -/
lemma matchList_mem {pcs : Finset Nat} {m : Nat × Quality}
    (h : m ∈ Chord.matchList pcs) :
    m.1 ∈ pcs ∧ m.1 < 12 ∧ m.2 ∈ Quality.all_sevenths ++ Quality.all_triads ∧
      Chord.intervalsFrom pcs m.1 = m.2.intervalSet := by
  obtain ⟨r, hr, hm⟩ := List.mem_flatMap.mp h
  obtain ⟨q, hq, rfl⟩ := List.mem_map.mp hm
  obtain ⟨hqscan, hqmatch⟩ := List.mem_filter.mp hq
  have hr2 := List.mem_filter.mp
    (show r ∈ (List.range 12).filter (fun r => decide (r ∈ pcs)) from hr)
  exact ⟨of_decide_eq_true hr2.2, List.mem_range.mp hr2.1, hqscan, by simpa using hqmatch⟩

/-- On scanned matches, the source's score agrees with the claim's score. -/
lemma matchScore_eq_specScore (lpc : Nat) (m : Nat × Quality)
    (h : m.2 ∈ Quality.all_sevenths ++ Quality.all_triads) :
    Chord.matchScore lpc m.1 m.2 = Chord.specScore lpc m := by
  unfold Chord.matchScore Chord.specScore
  congr 1
  rcases (seventh_mem_iff m.2 h) with ⟨h1, h2⟩
  by_cases h4 : m.2.intervals.length = 4
  · rw [if_pos h4, if_pos (h1 h4)]
  · rw [if_neg h4, if_neg (fun hmem => h4 (h2 hmem))]

/-- The detector's nested fold equals the first maximal-score match of the
match list, built into a chord. -/
lemma detect_fold_eq (pcs : Finset Nat) (lowest : Nat) :
    ((Chord.rootList pcs).foldl
      (fun best potential_root =>
        (Quality.all_sevenths ++ Quality.all_triads).foldl
          (fun best quality =>
            if Chord.intervalsFrom pcs potential_root = quality.intervalSet then
              if best.2 < Chord.matchScore (lowest % 12) potential_root quality then
                (some (Chord.buildMatch lowest potential_root quality),
                 Chord.matchScore (lowest % 12) potential_root quality)
              else best
            else best)
          best)
      ((none : Option Chord), 0)).1
    = ((Chord.matchList pcs).find? (fun m =>
        decide (∀ m2 ∈ Chord.matchList pcs,
          Chord.specScore (lowest % 12) m2 ≤ Chord.specScore (lowest % 12) m))).map
        (fun m => Chord.buildMatch lowest m.1 m.2) := by
  have hinner : (fun (best : Option Chord × Nat) potential_root =>
      (Quality.all_sevenths ++ Quality.all_triads).foldl
        (fun best quality =>
          if Chord.intervalsFrom pcs potential_root = quality.intervalSet then
            if best.2 < Chord.matchScore (lowest % 12) potential_root quality then
              (some (Chord.buildMatch lowest potential_root quality),
               Chord.matchScore (lowest % 12) potential_root quality)
            else best
          else best)
        best)
      = (fun best r =>
          (((Quality.all_sevenths ++ Quality.all_triads).filter
            (fun q => decide (Chord.intervalsFrom pcs r = q.intervalSet))).map
              (fun q => (r, q))).foldl (Chord.scoreStep lowest) best) := by
    funext best r
    exact foldl_filter_map (fun q => Chord.intervalsFrom pcs r = q.intervalSet)
      (fun q => (r, q)) (Chord.scoreStep lowest)
      (Quality.all_sevenths ++ Quality.all_triads) best
  rw [hinner]
  rw [← foldl_flatMap (fun r =>
    (((Quality.all_sevenths ++ Quality.all_triads).filter
      (fun q => decide (Chord.intervalsFrom pcs r = q.intervalSet))).map
        (fun q => (r, q)))) (Chord.scoreStep lowest) (Chord.rootList pcs)
    ((none : Option Chord), 0)]
  have hsame : ((Chord.rootList pcs).flatMap (fun r =>
      (((Quality.all_sevenths ++ Quality.all_triads).filter
        (fun q => decide (Chord.intervalsFrom pcs r = q.intervalSet))).map
          (fun q => (r, q))))) = Chord.matchList pcs := rfl
  rw [hsame]
  rw [show (Chord.scoreStep lowest) = (fun (best : Option Chord × Nat) m =>
      if best.2 < Chord.matchScore (lowest % 12) m.1 m.2
      then (some (Chord.buildMatch lowest m.1 m.2), Chord.matchScore (lowest % 12) m.1 m.2)
      else best) from rfl]
  rw [foldl_best (fun m => Chord.matchScore (lowest % 12) m.1 m.2)
    (fun m => Chord.buildMatch lowest m.1 m.2) (Chord.matchList pcs) none 0]
  rw [find?_congr _ (fun m => decide (∀ m2 ∈ Chord.matchList pcs,
      Chord.specScore (lowest % 12) m2 ≤ Chord.specScore (lowest % 12) m))
      (Chord.matchList pcs) ?_]
  · cases (Chord.matchList pcs).find? (fun m => decide (∀ m2 ∈ Chord.matchList pcs,
      Chord.specScore (lowest % 12) m2 ≤ Chord.specScore (lowest % 12) m)) with
    | none => rfl
    | some m => rfl
  · intro m hm
    rw [Bool.eq_iff_iff]
    simp only [Bool.and_eq_true, decide_eq_true_eq, List.all_eq_true, decide_eq_true_eq]
    have hmm := matchList_mem hm
    constructor
    · rintro ⟨-, hall⟩
      intro m2 hm2
      rw [← matchScore_eq_specScore _ _ (matchList_mem hm2).2.2.1,
        ← matchScore_eq_specScore _ _ hmm.2.2.1]
      exact hall m2 hm2
    · intro hall
      refine ⟨matchScore_pos _ _ _, ?_⟩
      intro m2 hm2
      rw [matchScore_eq_specScore _ _ (matchList_mem hm2).2.2.1,
        matchScore_eq_specScore _ _ hmm.2.2.1]
      exact hall m2 hm2

/-- The detector equals its specification-side description. -/
lemma detect_eq_detectSpec (notes : Finset Nat) :
    Chord.detect notes = Chord.detectSpec notes := by
  by_cases h1 : notes.card < 3
  · simp [Chord.detect, Chord.detectSpec, h1]
  · by_cases h2 : (notes.image (fun n => n % 12)).card < 3
    · simp [Chord.detect, Chord.detectSpec, h1, h2]
    · simp only [Chord.detect, Chord.detectSpec, h1, h2, if_false]
      exact detect_fold_eq (notes.image (fun n => n % 12)) (Chord.lowestNote notes)

/-- The root a matched chord is built with. -/
lemma buildMatch_root (lo r : Nat) (q : Quality) :
    (Chord.buildMatch lo r q).root = Note.new (r + 60) := by
  unfold Chord.buildMatch
  split <;> rfl

/-- The quality a matched chord is built with. -/
lemma buildMatch_quality (lo r : Nat) (q : Quality) :
    (Chord.buildMatch lo r q).quality = q := by
  unfold Chord.buildMatch
  split <;> rfl

/-- The bass a matched chord is built with. -/
lemma buildMatch_bass (lo r : Nat) (q : Quality) :
    (Chord.buildMatch lo r q).bass
      = if r = lo % 12 then none else some (Note.new lo) := by
  unfold Chord.buildMatch
  split <;> simp_all [Chord.new]

/-- Characterization of the chords the detector can return: the input has at
least 3 distinct notes and pitch classes, and the result is built from a
matched root (a pitch class of the input) and a scanned quality. -/
lemma detect_some_char {notes : Finset Nat} {c : Chord}
    (h : Chord.detect notes = some c) :
    3 ≤ notes.card ∧ (notes.image (fun n => n % 12)).card ≥ 3 ∧
      ∃ r q, r ∈ notes.image (fun n => n % 12) ∧ r < 12 ∧
        q ∈ Quality.all_sevenths ++ Quality.all_triads ∧
        Chord.intervalsFrom (notes.image (fun n => n % 12)) r = q.intervalSet ∧
        c = Chord.buildMatch (Chord.lowestNote notes) r q := by
  rw [detect_eq_detectSpec] at h
  unfold Chord.detectSpec at h
  by_cases h1 : notes.card < 3
  · simp [h1] at h
  · by_cases h2 : (notes.image (fun n => n % 12)).card < 3
    · simp [h1, h2] at h
    · simp only [h1, h2, if_false] at h
      obtain ⟨m, hfind, hbuild⟩ := Option.map_eq_some'.mp h
      have hmem := matchList_mem (List.mem_of_find?_eq_some hfind)
      exact ⟨by omega, by omega,
        m.1, m.2, hmem.1, hmem.2.1, hmem.2.2.1, hmem.2.2.2, hbuild.symm⟩

/-- On a nonempty set, `lowestNote` is a member and a lower bound. -/
lemma lowestNote_spec {notes : Finset Nat} (h : notes.Nonempty) :
    Chord.lowestNote notes ∈ notes ∧ ∀ m ∈ notes, Chord.lowestNote notes ≤ m := by
  unfold Chord.lowestNote
  cases hm : notes.min with
  | top =>
    exfalso
    obtain ⟨x, hx⟩ := h
    have := Finset.min_le hx
    rw [hm] at this
    exact absurd this (by simp)
  | coe m =>
    show (m ∈ notes ∧ ∀ x ∈ notes, m ≤ x)
    constructor
    · exact Finset.mem_of_min hm
    · intro x hx
      have := Finset.min_le hx
      rw [hm] at this
      exact_mod_cast this

/-- A value that is a member and a lower bound is the `lowestNote`. -/
lemma lowestNote_eq {notes : Finset Nat} {lo : Nat} (hmem : lo ∈ notes)
    (hlb : ∀ m ∈ notes, lo ≤ m) : Chord.lowestNote notes = lo := by
  obtain ⟨h1, h2⟩ := lowestNote_spec ⟨lo, hmem⟩
  exact le_antisymm (h2 lo hmem) (hlb _ h1)

/-- No scanned quality is `Add9` or `Unknown`. -/
lemma scanned_ne_add9_unknown :
    ∀ q ∈ Quality.all_sevenths ++ Quality.all_triads,
      q ≠ Quality.Add9 ∧ q ≠ Quality.Unknown := by decide

/-- The shape of every chord the detector produces: root at `pc + 60`,
a scanned quality, and an optional bass, given here by its pitch class
normalized to the reference octave. -/
def mkDetChord (r : Fin 12) (q : Quality) (ob : Option (Fin 12)) : Chord :=
  { root := Note.new (r.val + 60), quality := q,
    bass := ob.map (fun b => Note.new (b.val + 60)) }

/-- Decidable round-trip check: parsing the rendered name of a detector-shaped
chord succeeds and returns an equal chord modulo octave. -/
def rtCheck (r : Fin 12) (q : Quality) (ob : Option (Fin 12)) : Bool :=
  match Chord.from_name (Chord.name (mkDetChord r q ob)) with
  | .ok (some c2) => decide (Chord.sameModOctave c2 (mkDetChord r q ob))
  | _ => false

/-- The round-trip check holds for every root pitch class, every scanned
quality, and every bass pitch class different from the root. -/
lemma rtAll : ((List.finRange 12).all (fun r =>
    (Quality.all_sevenths ++ Quality.all_triads).all (fun q =>
      rtCheck r q none &&
        (List.finRange 12).all (fun b => decide (b = r) || rtCheck r q (some b))))) = true := by
  decide

/-- Unpacking `rtAll` to propositions. -/
lemma rt_all_prop (r : Fin 12) (q : Quality)
    (hq : q ∈ Quality.all_sevenths ++ Quality.all_triads) :
    rtCheck r q none = true ∧ ∀ b : Fin 12, b ≠ r → rtCheck r q (some b) = true := by
  have h := rtAll
  simp only [List.all_eq_true, Bool.and_eq_true, Bool.or_eq_true, decide_eq_true_eq] at h
  have hr := h r (List.mem_finRange r) q hq
  exact ⟨hr.1, fun b hb => (hr.2 b (List.mem_finRange b)).resolve_left hb⟩

/-- Unpacking a successful round-trip check. -/
lemma rtCheck_true {r : Fin 12} {q : Quality} {ob : Option (Fin 12)}
    (h : rtCheck r q ob = true) :
    ∃ c2, Chord.from_name (Chord.name (mkDetChord r q ob)) = .ok (some c2) ∧
      Chord.sameModOctave c2 (mkDetChord r q ob) := by
  unfold rtCheck at h
  cases hfn : Chord.from_name (Chord.name (mkDetChord r q ob)) with
  | error e => rw [hfn] at h; exact Bool.noConfusion h
  | ok o =>
    cases o with
    | none => rw [hfn] at h; exact Bool.noConfusion h
    | some c2 => rw [hfn] at h; exact ⟨c2, rfl, of_decide_eq_true h⟩

/-- A chord's rendered name only depends on the bass's pitch class. -/
lemma name_bass_mod (rt : Note) (q : Quality) (m : Nat) :
    Chord.name { root := rt, quality := q, bass := some (Note.new m) }
      = Chord.name { root := rt, quality := q, bass := some (Note.new (m % 12 + 60)) } := by
  unfold Chord.name Note.name Note.pitch_class Note.new
  have h12 : (m % 12 + 60) % 12 = m % 12 := by omega
  simp [h12]

/-- The numeral table agrees with the fixed numeral list on degrees below 12. -/
lemma numeralFor_eq (d : Nat) (hd : d < 12) :
    Chord.numeralFor d = (["I", "bII", "II", "bIII", "III", "IV", "bV", "V", "bVI",
      "VI", "bVII", "VII"].map String.toList).getD d [] := by
  interval_cases d <;> rfl

/-- Every degree outside the seven diatonic degrees takes the default row,
which is the row of degree `7` (the V degree). -/
lemma suggestionRow_default (d : Nat) (h0 : d ≠ 0) (h2 : d ≠ 2) (h4 : d ≠ 4)
    (h5 : d ≠ 5) (h7 : d ≠ 7) (h9 : d ≠ 9) (h11 : d ≠ 11) :
    ProgressionTree.suggestionRow d = (7, .Major, 0, .Major) := by
  unfold ProgressionTree.suggestionRow
  simp [h0, h2, h4, h5, h7, h9, h11]

/-- Every row of the suggestion table carries only Major or Minor qualities. -/
lemma suggestionRow_quality (d : Nat) :
    ((ProgressionTree.suggestionRow d).2.1 = .Major ∨
      (ProgressionTree.suggestionRow d).2.1 = .Minor) ∧
    ((ProgressionTree.suggestionRow d).2.2.2 = .Major ∨
      (ProgressionTree.suggestionRow d).2.2.2 = .Minor) := by
  unfold ProgressionTree.suggestionRow
  repeat' split
  all_goals simp

/-- The property claim C10 asserts of every suggested (non-root) chord. -/
def goodSuggestion (ext : Bool) (c : Chord) : Prop :=
  c.bass = none ∧ 60 ≤ c.root.midi ∧ c.root.midi ≤ 71 ∧
    (ext = false → (c.quality = .Major ∨ c.quality = .Minor)) ∧
    (ext = true → (c.quality = .Major7 ∨ c.quality = .Minor7))

/-- First component of `get_suggestions`, written out. -/
lemma gs_fst (t : ProgressionTree) (d : Nat) (key : Note) (cur : Chord) :
    (t.get_suggestions d key cur).1
      = Chord.new (Note.new ((key.pitch_class + (ProgressionTree.suggestionRow d).1) % 12 + 60))
          (if t.extended_mode then t.extend_quality (ProgressionTree.suggestionRow d).2.1
           else (ProgressionTree.suggestionRow d).2.1) := rfl

/-- Second component of `get_suggestions`, written out. -/
lemma gs_snd (t : ProgressionTree) (d : Nat) (key : Note) (cur : Chord) :
    (t.get_suggestions d key cur).2
      = Chord.new (Note.new ((key.pitch_class + (ProgressionTree.suggestionRow d).2.2.1) % 12 + 60))
          (if t.extended_mode then t.extend_quality (ProgressionTree.suggestionRow d).2.2.2
           else (ProgressionTree.suggestionRow d).2.2.2) := rfl

/-- Both chords returned by `get_suggestions` satisfy `goodSuggestion`. -/
lemma gs_good (t : ProgressionTree) (d : Nat) (key : Note) (cur : Chord) :
    goodSuggestion t.extended_mode (t.get_suggestions d key cur).1 ∧
      goodSuggestion t.extended_mode (t.get_suggestions d key cur).2 := by
  obtain ⟨hq1, hq2⟩ := suggestionRow_quality d
  have hb1 : (key.pitch_class + (ProgressionTree.suggestionRow d).1) % 12 < 12 :=
    Nat.mod_lt _ (by norm_num)
  have hb2 : (key.pitch_class + (ProgressionTree.suggestionRow d).2.2.1) % 12 < 12 :=
    Nat.mod_lt _ (by norm_num)
  rw [gs_fst, gs_snd]
  unfold goodSuggestion
  simp only [Chord.new, Note.new]
  cases hext : t.extended_mode with
  | false =>
    simp only [Bool.false_eq_true, if_false]
    exact ⟨⟨trivial, by omega, by omega, fun _ => hq1, fun hcon => absurd hcon (by decide)⟩,
      ⟨trivial, by omega, by omega, fun _ => hq2, fun hcon => absurd hcon (by decide)⟩⟩
  | true =>
    simp only [if_true]
    refine ⟨⟨trivial, by omega, by omega, fun hcon => absurd hcon (by decide), fun _ => ?_⟩,
      ⟨trivial, by omega, by omega, fun hcon => absurd hcon (by decide), fun _ => ?_⟩⟩
    · rcases hq1 with h | h <;> rw [h] <;> simp [ProgressionTree.extend_quality]
    · rcases hq2 with h | h <;> rw [h] <;> simp [ProgressionTree.extend_quality]

/-- Claim C1: for every input set, the detector scores each exact
interval-set match as base 10 for a root-position root and 5 otherwise, plus
2 for a seventh (four-note) quality, and returns the match with the strictly
highest score, ties broken in favour of the first match encountered in the
enumeration order of candidate roots with sevenths scanned before triads
(`Chord.detectSpec` is that specification, stated via a first-maximum
search over the ordered match list). -/
theorem claim_C1 (notes : Finset Nat) : Chord.detect notes = Chord.detectSpec notes :=
  detect_eq_detectSpec notes

/-- Claim C3: the detector returns no match when the input has fewer than 3
distinct note numbers or fewer than 3 distinct pitch classes. -/
theorem claim_C3 (notes : Finset Nat)
    (h : notes.card < 3 ∨ (notes.image (fun n => n % 12)).card < 3) :
    Chord.detect notes = none := by
  by_cases h1 : notes.card < 3
  · simp [Chord.detect, h1]
  · rcases h with h | h
    · exact absurd h h1
    · simp [Chord.detect, h1, h]

/-- Witness for claim C3: the empty set and the two-note set `{60, 67}`
produce no match. -/
theorem claim_C3_witness :
    Chord.detect (∅ : Finset Nat) = none ∧ Chord.detect {60, 67} = none :=
  ⟨claim_C3 ∅ (Or.inl (by decide)), claim_C3 {60, 67} (Or.inl (by decide))⟩

/-- Claim C4: when the detector returns a chord, the root is instantiated at
pitch class + 60, and the bass is `Some(Note(lowest_note))` exactly when the
winning root's pitch class differs from the pitch class of the minimum input
note, `None` otherwise. -/
theorem claim_C4 (notes : Finset Nat) (c : Chord) (lowest : Nat)
    (h : Chord.detect notes = some c) (hmem : lowest ∈ notes)
    (hlb : ∀ m ∈ notes, lowest ≤ m) :
    c.root.midi = c.root.pitch_class + 60 ∧
    (c.root.pitch_class ≠ lowest % 12 → c.bass = some (Note.new lowest)) ∧
    (c.root.pitch_class = lowest % 12 → c.bass = none) := by
  obtain ⟨hcard, -, r, q, -, hr12, -, -, rfl⟩ := detect_some_char h
  have hlo : Chord.lowestNote notes = lowest := lowestNote_eq hmem hlb
  rw [buildMatch_root, buildMatch_bass, hlo]
  have hpc : (Note.new (r + 60)).pitch_class = r := by
    show (r + 60) % 12 = r
    omega
  rw [hpc]
  refine ⟨rfl, ?_, ?_⟩
  · intro hne
    rw [if_neg hne]
  · intro heq
    rw [if_pos heq]

/-- Witness for claim C4: on `{64, 67, 72}` (E, G, C) the detector returns
C major over an E bass, and the claim's conclusions hold with lowest note 64. -/
theorem claim_C4_witness :
    Chord.detect {64, 67, 72} = some
      { root := Note.new 60, quality := Quality.Major, bass := some (Note.new 64) } ∧
    ((64 : Nat) ∈ ({64, 67, 72} : Finset Nat)) ∧
    ({ root := Note.new 60, quality := Quality.Major, bass := some (Note.new 64) } : Chord).root.midi
      = ({ root := Note.new 60, quality := Quality.Major,
           bass := some (Note.new 64) } : Chord).root.pitch_class + 60 ∧
    (({ root := Note.new 60, quality := Quality.Major,
        bass := some (Note.new 64) } : Chord).root.pitch_class ≠ 64 % 12 →
      ({ root := Note.new 60, quality := Quality.Major,
         bass := some (Note.new 64) } : Chord).bass = some (Note.new 64)) := by
  have hdet : Chord.detect {64, 67, 72} = some
      { root := Note.new 60, quality := Quality.Major, bass := some (Note.new 64) } := by
    decide
  have h := claim_C4 {64, 67, 72}
    { root := Note.new 60, quality := Quality.Major, bass := some (Note.new 64) } 64
    hdet (by decide) (by decide)
  exact ⟨hdet, by decide, h.1, h.2.1⟩

/-- Claim C5 counterexample: at the non-diatonic degree 1 in key C, the
suggested pair is not the pair the V degree maps to; it is the pair
(V major, I major) = (G, C), not (I, vi) = (C, Am). -/
theorem claim_C5_counterexample :
    (ProgressionTree.mk false).get_suggestions 1 (Note.new 60) (Chord.new (Note.new 60) .Major)
        ≠ (ProgressionTree.mk false).get_suggestions 7 (Note.new 60)
            (Chord.new (Note.new 60) .Major) ∧
    (ProgressionTree.mk false).get_suggestions 1 (Note.new 60) (Chord.new (Note.new 60) .Major)
      = (Chord.new (Note.new 67) .Major, Chord.new (Note.new 60) .Major) := by
  constructor
  · decide
  · decide

/-- Claim C5 (amended): every non-diatonic degree falls back to the default
suggestion row, which suggests the V chord (Major) and the I chord (Major)
relative to the key, each upgraded to its seventh form in extended mode. -/
theorem claim_C5_amended (t : ProgressionTree) (d : Nat) (key : Note) (cur : Chord)
    (h : d ∉ ([0, 2, 4, 5, 7, 9, 11] : List Nat)) :
    (t.get_suggestions d key cur).1
      = Chord.new (Note.new ((key.pitch_class + 7) % 12 + 60))
          (if t.extended_mode then Quality.Major7 else Quality.Major) ∧
    (t.get_suggestions d key cur).2
      = Chord.new (Note.new ((key.pitch_class + 0) % 12 + 60))
          (if t.extended_mode then Quality.Major7 else Quality.Major) := by
  simp only [List.mem_cons, List.not_mem_nil, or_false, not_or] at h
  obtain ⟨h0, h2, h4, h5, h7, h9, h11⟩ := h
  have hrow := suggestionRow_default d h0 h2 h4 h5 h7 h9 h11
  rw [gs_fst, gs_snd, hrow]
  cases t.extended_mode <;> simp [ProgressionTree.extend_quality]

/-- Witness for the amended claim C5: degree 1 in key C, plain mode, suggests
G major (the V chord) and C major (the I chord). -/
theorem claim_C5_amended_witness :
    ((ProgressionTree.mk false).get_suggestions 1 (Note.new 60)
        (Chord.new (Note.new 60) .Major)).1
      = Chord.new (Note.new (((Note.new 60).pitch_class + 7) % 12 + 60))
          (if (ProgressionTree.mk false).extended_mode then Quality.Major7
           else Quality.Major) ∧
    ((ProgressionTree.mk false).get_suggestions 1 (Note.new 60)
        (Chord.new (Note.new 60) .Major)).2
      = Chord.new (Note.new (((Note.new 60).pitch_class + 0) % 12 + 60))
          (if (ProgressionTree.mk false).extended_mode then Quality.Major7
           else Quality.Major) :=
  claim_C5_amended (ProgressionTree.mk false) 1 (Note.new 60)
    (Chord.new (Note.new 60) .Major) (by decide)

/-- Claim C8: the detector never returns a chord whose quality is `Add9` or
`Unknown`. -/
theorem claim_C8 (notes : Finset Nat) (c : Chord) (h : Chord.detect notes = some c) :
    c.quality ≠ Quality.Add9 ∧ c.quality ≠ Quality.Unknown := by
  obtain ⟨-, -, r, q, -, -, hq, -, rfl⟩ := detect_some_char h
  rw [buildMatch_quality]
  exact scanned_ne_add9_unknown q hq

/-- Witness for claim C8: on `{60, 64, 67}` the detector returns C major,
whose quality is neither `Add9` nor `Unknown`. -/
theorem claim_C8_witness :
    Chord.detect {60, 64, 67} = some (Chord.new (Note.new 60) .Major) ∧
    (Chord.new (Note.new 60) Quality.Major).quality ≠ Quality.Add9 ∧
    (Chord.new (Note.new 60) Quality.Major).quality ≠ Quality.Unknown := by
  have hdet : Chord.detect {60, 64, 67} = some (Chord.new (Note.new 60) .Major) := by decide
  exact ⟨hdet, claim_C8 {60, 64, 67} (Chord.new (Note.new 60) .Major) hdet⟩

/-- Claim C9: for every current chord and key, the suggestion tree holds the
current chord at its root and has exactly 3 levels and 7 nodes: both children
present, all four grandchildren present and childless, and in every node the
left and right children are both present or both absent. -/
theorem claim_C9 (t : ProgressionTree) (cur : Chord) (key : Option Note) :
    (t.suggest cur key).chord = cur ∧
    (t.suggest cur key).size = 7 ∧
    (t.suggest cur key).depth = 3 ∧
    (t.suggest cur key).balanced = true ∧
    ∃ l r, (t.suggest cur key).left = some l ∧ (t.suggest cur key).right = some r ∧
      (∃ ll lr, l.left = some ll ∧ l.right = some lr ∧
        ll.left = none ∧ ll.right = none ∧ lr.left = none ∧ lr.right = none) ∧
      (∃ rl rr, r.left = some rl ∧ r.right = some rr ∧
        rl.left = none ∧ rl.right = none ∧ rr.left = none ∧ rr.right = none) :=
  ⟨rfl, rfl, rfl, rfl, _, _, rfl, rfl,
    ⟨_, _, rfl, rfl, rfl, rfl, rfl, rfl⟩, ⟨_, _, rfl, rfl, rfl, rfl, rfl, rfl⟩⟩

set_option maxHeartbeats 1000000 in
/-- Claim C10: every node of the suggestion tree other than the root holds a
chord with no bass, a root in the reference octave `[60, 71]`, and a Major or
Minor quality in plain mode, Major7 or Minor7 in extended mode. -/
theorem claim_C10 (t : ProgressionTree) (cur : Chord) (key : Option Note)
    (n : ProgressionNode) (h : n ∈ ((t.suggest cur key).nodes).tail) :
    n.chord.bass = none ∧ 60 ≤ n.chord.root.midi ∧ n.chord.root.midi ≤ 71 ∧
    (t.extended_mode = false → (n.chord.quality = .Major ∨ n.chord.quality = .Minor)) ∧
    (t.extended_mode = true → (n.chord.quality = .Major7 ∨ n.chord.quality = .Minor7)) := by
  simp only [ProgressionTree.suggest, ProgressionNode.with_children, ProgressionNode.new,
    ProgressionNode.chord, ProgressionNode.nodes, List.tail_cons, List.mem_append,
    List.mem_cons, List.mem_singleton, List.not_mem_nil, or_false] at h
  rcases h with (rfl | rfl | rfl) | (rfl | rfl | rfl)
  · exact (gs_good t _ _ _).1
  · exact (gs_good t _ _ _).1
  · exact (gs_good t _ _ _).2
  · exact (gs_good t _ _ _).2
  · exact (gs_good t _ _ _).1
  · exact (gs_good t _ _ _).2

/-- Witness for claim C10: the first grandchild of the tree suggested from
C major (no explicit key, plain mode) is the leaf holding G major, and the
claimed properties hold of it. -/
theorem claim_C10_witness :
    (ProgressionNode.mk (Chord.new (Note.new 67) .Major) none none)
        ∈ (((ProgressionTree.mk false).suggest (Chord.new (Note.new 60) .Major) none).nodes).tail ∧
    ((ProgressionNode.mk (Chord.new (Note.new 67) .Major) none none).chord.bass = none ∧
      60 ≤ (ProgressionNode.mk (Chord.new (Note.new 67) .Major) none none).chord.root.midi ∧
      (ProgressionNode.mk (Chord.new (Note.new 67) .Major) none none).chord.root.midi ≤ 71 ∧
      ((ProgressionTree.mk false).extended_mode = false →
        ((ProgressionNode.mk (Chord.new (Note.new 67) .Major) none none).chord.quality = .Major ∨
         (ProgressionNode.mk (Chord.new (Note.new 67) .Major) none none).chord.quality = .Minor)) ∧
      ((ProgressionTree.mk false).extended_mode = true →
        ((ProgressionNode.mk (Chord.new (Note.new 67) .Major) none none).chord.quality = .Major7 ∨
         (ProgressionNode.mk (Chord.new (Note.new 67) .Major) none none).chord.quality = .Minor7))) := by
  have htree : (ProgressionTree.mk false).suggest (Chord.new (Note.new 60) .Major) none
      = ProgressionNode.mk (Chord.new (Note.new 60) .Major)
          (some (ProgressionNode.mk (Chord.new (Note.new 65) .Major)
            (some (ProgressionNode.mk (Chord.new (Note.new 67) .Major) none none))
            (some (ProgressionNode.mk (Chord.new (Note.new 60) .Major) none none))))
          (some (ProgressionNode.mk (Chord.new (Note.new 69) .Minor)
            (some (ProgressionNode.mk (Chord.new (Note.new 62) .Minor) none none))
            (some (ProgressionNode.mk (Chord.new (Note.new 65) .Major) none none)))) := rfl
  have hmem : (ProgressionNode.mk (Chord.new (Note.new 67) .Major) none none)
      ∈ (((ProgressionTree.mk false).suggest (Chord.new (Note.new 60) .Major) none).nodes).tail := by
    rw [htree]
    simp [ProgressionNode.nodes]
  exact ⟨hmem, claim_C10 (ProgressionTree.mk false) (Chord.new (Note.new 60) .Major) none
    (ProgressionNode.mk (Chord.new (Note.new 67) .Major) none none) hmem⟩

/-- Claim C6 evidence: on the input `"é"` (a single two-byte character),
`Chord::from_name` slices the string at byte index 1, which is not a
character boundary, and aborts instead of returning `None`; `Note::from_name`
aborts the same way on `"é4"`. -/
theorem claim_C6_panic_eval :
    Chord.from_name ['é'] = Except.error () ∧
    Note.from_name ['é', '4'] = Except.error () :=
  ⟨rfl, rfl⟩

/-- Claim C7: roman numeral rendering maps the degree to the fixed numeral
list I, bII, II, bIII, III, IV, bV, V, bVI, VI, bVII, VII, lowercases exactly
when the quality is Minor, Minor7, MinorMajor7, HalfDiminished7, Diminished
or Diminished7, and appends the quality suffix with Minor7 and Dominant7 both
producing "7" (`Chord.romanSpec` is that description); in key C, C major is
"I", A minor is "vi" and G dominant-seventh is "V7". -/
theorem claim_C7 :
    (∀ (c : Chord) (key : Note), Chord.roman_numeral c key = Chord.romanSpec c key) ∧
    Chord.roman_numeral (Chord.new (Note.new 60) .Major) (Note.new 60) = "I".toList ∧
    Chord.roman_numeral (Chord.new (Note.new 69) .Minor) (Note.new 60) = "vi".toList ∧
    Chord.roman_numeral (Chord.new (Note.new 67) .Dominant7) (Note.new 60) = "V7".toList := by
  refine ⟨?_, by decide, by decide, by decide⟩
  intro c key
  have hd : (c.root.pitch_class + 12 - key.pitch_class) % 12 < 12 :=
    Nat.mod_lt _ (by norm_num)
  simp only [Chord.roman_numeral, Chord.romanSpec]
  rw [numeralFor_eq _ hd]
  rcases c with ⟨rt, q, bs⟩
  cases q <;> simp

/-- Claim C2: every chord the detector produces parses back from its rendered
name to a chord with the same root pitch class, the same quality, and the
same bass pitch class (or both basses absent). -/
theorem claim_C2 (notes : Finset Nat) (c : Chord) (h : Chord.detect notes = some c) :
    ∃ parsed, Chord.from_name (Chord.name c) = Except.ok (some parsed) ∧
      Chord.sameModOctave parsed c := by
  obtain ⟨-, -, r, q, -, hr12, hq, -, rfl⟩ := detect_some_char h
  by_cases hrp : r = Chord.lowestNote notes % 12
  · have hb := (rt_all_prop ⟨r, hr12⟩ q hq).1
    obtain ⟨c2, hfn, hsame⟩ := rtCheck_true hb
    have hmk : mkDetChord ⟨r, hr12⟩ q none
        = Chord.buildMatch (Chord.lowestNote notes) r q := by
      unfold mkDetChord Chord.buildMatch Chord.new
      rw [if_pos hrp]
      rfl
    rw [← hmk]
    exact ⟨c2, hfn, hsame⟩
  · have hlo12 : Chord.lowestNote notes % 12 < 12 := by omega
    have hbne : (⟨Chord.lowestNote notes % 12, hlo12⟩ : Fin 12) ≠ ⟨r, hr12⟩ := by
      intro hcon
      exact hrp (congrArg Fin.val hcon).symm
    have hb := (rt_all_prop ⟨r, hr12⟩ q hq).2 ⟨Chord.lowestNote notes % 12, hlo12⟩ hbne
    obtain ⟨c2, hfn, hsame⟩ := rtCheck_true hb
    have hbuild : Chord.buildMatch (Chord.lowestNote notes) r q
        = { root := Note.new (r + 60), quality := q,
            bass := some (Note.new (Chord.lowestNote notes)) } := by
      unfold Chord.buildMatch
      rw [if_neg hrp]
    have hmkval : mkDetChord ⟨r, hr12⟩ q (some ⟨Chord.lowestNote notes % 12, hlo12⟩)
        = { root := Note.new (r + 60), quality := q,
            bass := some (Note.new (Chord.lowestNote notes % 12 + 60)) } := rfl
    refine ⟨c2, ?_, ?_⟩
    · rw [hbuild, name_bass_mod (Note.new (r + 60)) q (Chord.lowestNote notes), ← hmkval]
      exact hfn
    · rw [hbuild]
      rw [hmkval] at hsame
      unfold Chord.sameModOctave at hsame ⊢
      refine ⟨hsame.1, hsame.2.1, ?_⟩
      have hpcs : (Note.new (Chord.lowestNote notes % 12 + 60)).pitch_class
          = (Note.new (Chord.lowestNote notes)).pitch_class := by
        show (Chord.lowestNote notes % 12 + 60) % 12 = Chord.lowestNote notes % 12
        omega
      calc c2.bass.map Note.pitch_class
          = (some (Note.new (Chord.lowestNote notes % 12 + 60))).map Note.pitch_class :=
            hsame.2.2
        _ = some ((Note.new (Chord.lowestNote notes % 12 + 60)).pitch_class) := rfl
        _ = some ((Note.new (Chord.lowestNote notes)).pitch_class) := by rw [hpcs]
        _ = ({ root := Note.new (r + 60), quality := q,
               bass := some (Note.new (Chord.lowestNote notes)) } : Chord).bass.map
                 Note.pitch_class := rfl

/-- Witness for claim C2: the detector's output on `{60, 64, 67}` is C major,
and its name parses back to an equal chord modulo octave. -/
theorem claim_C2_witness :
    Chord.detect {60, 64, 67} = some (Chord.new (Note.new 60) .Major) ∧
    ∃ parsed, Chord.from_name (Chord.name (Chord.new (Note.new 60) .Major))
        = Except.ok (some parsed) ∧
      Chord.sameModOctave parsed (Chord.new (Note.new 60) .Major) := by
  have hdet : Chord.detect {60, 64, 67} = some (Chord.new (Note.new 60) .Major) := by decide
  exact ⟨hdet, claim_C2 {60, 64, 67} (Chord.new (Note.new 60) .Major) hdet⟩
